import Mathlib

/-!
Verification of the work-expansion engine of `rofm/classes/core/work/workload.py`.

The embedding models, straight from the source:
* `WorkloadType` (the task-kind enum) and its `name` rendering,
* Python values that flow through resolvers (`PyVal`), with the
  `isinstance(x, collections.Iterable)` and `isinstance(x, WorkNode)` tests
  the adapter performs,
* `split_iterable`,
* the normalization performed by `decorated_function` inside
  `WorkNode.workload_resolver`,
* `WorkNode._register_resolver`,
* `WorkNode.__init__` (construction, default name, parent attachment),
* `WorkNode.do_my_work` and `WorkNode.do_all_work`.

`do_all_work` iterates anytree's `PreOrderIter` over a tree that grows while
it is being walked: children are attached to a node by that node's own
`do_my_work`, before the (lazy) iterator descends into the node's children.
The executor is therefore embedded as a fuel-indexed recursive walk over a
forest (`execF`): visit the head node (`do_my_work`), then the node's - now
final - children, then the remaining trees of the forest.  The fuel only
bounds the number of walk steps (the Python code has no such bound and simply
does not terminate on an infinitely expanding tree); every theorem is stated
about runs that complete within their fuel.

A visit log of forest positions (paths: lists of child indices, the head of a
forest being index 0) instruments the walk; an entry is appended exactly when
a node's `do_my_work` completes, which is when its resolver has been invoked.
Exceptions are modelled by `Except`/error results: `KeyError` on a missing
registry entry (the spec's `UnregisteredKindError`, `Err.unregisteredKind`)
and a raising resolver (the spec's `ResolverFailure`, `Err.resolverFailure`).

`kwargs` is not modelled separately: `WorkNode.__init__` takes no `kwargs`
parameter, so `self.kwargs` is always the empty dict the `Workload` dataclass
defaults it to, and `resolver(*self.args, **self.kwargs)` passes no keyword
arguments.
-/

/-- The `WorkloadType` enum (an `AutoName`-style `str` enum: each member's
value is its own name). -/
inductive WorkloadType where
  | username_mention
  | private_message
  | chat
  | parse_op
  | parse_for_reddit_domain_urls
  | parse_top_level_comments
  | parse_comment_for_table
  | parse_arbitrary_text_for_table
  | parse_table
  | parse_wide_table
  | perform_basic_roll
  | perform_compound_roll
  | roll_stats
  | roll_specific_request
  | roll_table
  | roll_this_die
  | respond_with_private_message_apology
  | default_request
  | follow_link
deriving DecidableEq, Repr

/-- The `.name` attribute of a `WorkloadType` member. -/
def WorkloadType.enumName : WorkloadType → String
  | .username_mention => "username_mention"
  | .private_message => "private_message"
  | .chat => "chat"
  | .parse_op => "parse_op"
  | .parse_for_reddit_domain_urls => "parse_for_reddit_domain_urls"
  | .parse_top_level_comments => "parse_top_level_comments"
  | .parse_comment_for_table => "parse_comment_for_table"
  | .parse_arbitrary_text_for_table => "parse_arbitrary_text_for_table"
  | .parse_table => "parse_table"
  | .parse_wide_table => "parse_wide_table"
  | .perform_basic_roll => "perform_basic_roll"
  | .perform_compound_roll => "perform_compound_roll"
  | .roll_stats => "roll_stats"
  | .roll_specific_request => "roll_specific_request"
  | .roll_table => "roll_table"
  | .roll_this_die => "roll_this_die"
  | .respond_with_private_message_apology => "respond_with_private_message_apology"
  | .default_request => "default_request"
  | .follow_link => "follow_link"

/-- Python values as they flow through resolvers and the adapter.
`worknode k args nm` stands for a freshly constructed
`WorkNode(k, args, name=nm)` returned by a resolver body (every resolver in
the source constructs the `WorkNode`s it returns, unfinished and childless).
-/
inductive PyVal where
  | none
  | int (n : Int)
  | str (s : String)
  | worknode (work_type : WorkloadType) (args : List PyVal) (nm : Option String)
  | list (xs : List PyVal)
  | tuple (xs : List PyVal)

/-- `isinstance(x, collections.Iterable)`: strings, lists and tuples are
iterable; `None`, ints and `WorkNode`s (which define no `__iter__`) are not. -/
def PyVal.isIterable : PyVal → Bool
  | .str _ => true
  | .list _ => true
  | .tuple _ => true
  | _ => false

/-- Iterating an iterable Python value.  Iterating a string yields its
individual characters, each a length-one string. -/
def PyVal.iterate : PyVal → List PyVal
  | .str s => s.data.map (fun c => PyVal.str (String.mk [c]))
  | .list xs => xs
  | .tuple xs => xs
  | _ => []

/-- `isinstance(item, WorkNode)`. -/
def PyVal.isWorkNode : PyVal → Bool
  | .worknode _ _ _ => true
  | _ => false

/-- `split_iterable(iterable, split_condition)`: one pass, appending each item
to the satisfying or the non-satisfying list, both in original order. -/
def split_iterable : List PyVal → (PyVal → Bool) → List PyVal × List PyVal
  | [], _ => ([], [])
  | item :: rest, split_condition =>
    let (list_satisfying, list_not_satisfying) := split_iterable rest split_condition
    if split_condition item then (item :: list_satisfying, list_not_satisfying)
    else (list_satisfying, item :: list_not_satisfying)

/-- The normalization the body of `decorated_function` applies to the raw
return value of a registered resolver:
zero return arguments (`None`) give `([], None)`; a single non-iterable
return gives `([v], None)` for a `WorkNode` and `([], v)` otherwise; an
iterable is split by `isinstance(item, WorkNode)` into `(workload, outputs)`
(`outputs` being the Python list of the non-`WorkNode` items). -/
def normalizeResult : PyVal → List PyVal × PyVal
  | PyVal.none => ([], PyVal.none)
  | v =>
    if v.isIterable then
      let (workload, outputs) := split_iterable v.iterate PyVal.isWorkNode
      (workload, PyVal.list outputs)
    else if v.isWorkNode then ([v], PyVal.none)
    else ([], v)

/-- A raw resolver body: takes the node's `args`, may raise. -/
def RawResolver : Type := List PyVal → Except Unit PyVal

/-- A registered (wrapped) resolver, as stored in `work_resolution`. -/
def Resolver : Type := List PyVal → Except Unit (List PyVal × PyVal)

/-- `decorated_function`: call the wrapped raw resolver and normalize its
return value; an exception from the raw resolver propagates. -/
def decorated_function (f : RawResolver) : Resolver := fun args =>
  match f args with
  | Except.error e => Except.error e
  | Except.ok base_function_return_value =>
      Except.ok (normalizeResult base_function_return_value)

/-- The class-wide `work_resolution` table. -/
def Registry : Type := WorkloadType → Option Resolver

/-- `WorkNode._register_resolver(work_type, registered_resolver, override)`:
the `assert override or work_type not in cls.work_resolution` raises
`AssertionError` (the spec's `DuplicateRegistrationError`) on a duplicate
registration without override, leaving the table untouched; otherwise the
binding is written. -/
def _register_resolver (reg : Registry) (work_type : WorkloadType)
    (registered_resolver : Resolver) (override : Bool) : Except Unit Registry :=
  if override || (reg work_type).isNone then
    Except.ok (fun k => if k = work_type then Option.some registered_resolver else reg k)
  else
    Except.error ()

/-- A `WorkNode`: workload type, positional args, name, `finished` flag,
`output` (`PyVal.none` is Python's `None`, the absent marker the dataclass
initialises `output` to), and the ordered children. -/
inductive WNode where
  | mk (work_type : WorkloadType) (args : List PyVal) (nm : String)
       (finished : Bool) (output : PyVal) (children : List WNode)

def WNode.work_type : WNode → WorkloadType
  | .mk k _ _ _ _ _ => k

def WNode.args : WNode → List PyVal
  | .mk _ a _ _ _ _ => a

def WNode.nodeName : WNode → String
  | .mk _ _ nm _ _ _ => nm

def WNode.finished : WNode → Bool
  | .mk _ _ _ fin _ _ => fin

def WNode.output : WNode → PyVal
  | .mk _ _ _ _ out _ => out

def WNode.children : WNode → List WNode
  | .mk _ _ _ _ _ ch => ch

def WNode.withChildren : WNode → List WNode → WNode
  | .mk k a nm fin out _, cs => .mk k a nm fin out cs

/-- The default node name, `f"'{work_type.name}'"`. -/
def defaultName (work_type : WorkloadType) : String :=
  "\x27" ++ work_type.enumName ++ "\x27"

/-- `WorkNode.__init__(work_type, args=(), *, name=None, parent=None)` less
the parent attachment: `finished=False` and `output=None` from the
`Workload` dataclass, the name defaulting when `name` is falsy. -/
def workNodeInit (work_type : WorkloadType) (args : List PyVal)
    (nm : Option String) : WNode :=
  WNode.mk work_type args
    (match nm with
     | Option.some s => if s.isEmpty then defaultName work_type else s
     | Option.none => defaultName work_type)
    false PyVal.none []

/-- `self.parent = parent`: anytree appends `self` to `parent.children`;
this returns the updated parent. -/
def attachTo (parent : WNode) (child : WNode) : WNode :=
  parent.withChildren (parent.children ++ [child])

/-- Materialise a `WorkNode` value returned by a resolver. -/
def toChild : PyVal → Option WNode
  | PyVal.worknode k args nm => Option.some (workNodeInit k args nm)
  | _ => Option.none

/-- Errors that abort `do_all_work`. -/
inductive Err where
  | unregisteredKind (k : WorkloadType)
  | resolverFailure
deriving DecidableEq, Repr

/-- `WorkNode.do_my_work`: look the resolver up (`KeyError` =
`Err.unregisteredKind` if the kind is unbound), invoke it on the node's args
(a raised exception aborts with `Err.resolverFailure`, the node untouched),
then assign `self.output`, attach each returned child after the existing
children, and set `self.finished = True`. -/
def do_my_work (reg : Registry) (n : WNode) : Except Err WNode :=
  match reg n.work_type with
  | Option.none => Except.error (Err.unregisteredKind n.work_type)
  | Option.some resolver =>
    match resolver n.args with
    | Except.error _ => Except.error Err.resolverFailure
    | Except.ok (new_work, out) =>
        Except.ok (WNode.mk n.work_type n.args n.nodeName true out
          (n.children ++ new_work.filterMap toChild))

/-- Outcome of a (partial) run: either the fuel ran out, or the walk
completed over the final forest with its visit log, or a node's
`do_my_work` raised, aborting the walk with the partial forest, the log of
completed visits, and the position of the failing node. -/
inductive ExecResult where
  | noFuel
  | ok (forest : List WNode) (log : List (List Nat))
  | fail (forest : List WNode) (log : List (List Nat)) (failPath : List Nat) (e : Err)

/-- Reindex a forest position when one tree is prepended to the forest. -/
def shiftPath : List Nat → List Nat
  | [] => []
  | j :: r => (j + 1) :: r

/-- The pre-order walk of `do_all_work` over a forest, one fuel unit per
step.  Visit the head node (`do_my_work`), then - exactly as anytree's lazy
`PreOrderIter` does after `do_my_work` has attached the new children - walk
the head's now-final children, then the rest of the forest.  An error aborts
the whole walk, leaving every unvisited node untouched. -/
def execF (reg : Registry) : Nat → List WNode → ExecResult
  | 0, _ => ExecResult.noFuel
  | Nat.succ _, [] => ExecResult.ok [] []
  | Nat.succ f, c :: rest =>
    match do_my_work reg c with
    | Except.error e => ExecResult.fail (c :: rest) [] [0] e
    | Except.ok c1 =>
      match execF reg f c1.children with
      | ExecResult.noFuel => ExecResult.noFuel
      | ExecResult.fail cs2 log2 p e =>
          ExecResult.fail (c1.withChildren cs2 :: rest)
            ([0] :: log2.map (fun q => 0 :: q)) (0 :: p) e
      | ExecResult.ok cs2 log2 =>
        match execF reg f rest with
        | ExecResult.noFuel => ExecResult.noFuel
        | ExecResult.ok cs3 log3 =>
            ExecResult.ok (c1.withChildren cs2 :: cs3)
              (([0] :: log2.map (fun q => 0 :: q)) ++ log3.map shiftPath)
        | ExecResult.fail cs3 log3 p e =>
            ExecResult.fail (c1.withChildren cs2 :: cs3)
              (([0] :: log2.map (fun q => 0 :: q)) ++ log3.map shiftPath)
              (shiftPath p) e

/-- `WorkNode.do_all_work(self)`: walk the tree rooted at `n` (the forest
`[n]`) in expansion-aware pre-order. -/
def do_all_work (reg : Registry) (fuel : Nat) (n : WNode) : ExecResult :=
  execF reg fuel [n]

/-- The pre-order positions of a (final) forest: the head tree's root is
`[0]`, followed by the head's children forest prefixed with `0`, followed by
the rest of the forest reindexed. -/
def preorderF : List WNode → List (List Nat)
  | [] => []
  | WNode.mk _ _ _ _ _ ch :: rest =>
      ([0] :: (preorderF ch).map (fun q => 0 :: q)) ++ (preorderF rest).map shiftPath

/-- Every node of the forest is `finished`. -/
def allFinishedF : List WNode → Bool
  | [] => true
  | WNode.mk _ _ _ fin _ ch :: rest => fin && allFinishedF ch && allFinishedF rest

/-- `output` is `None`? -/
def PyVal.isNoneV : PyVal → Bool
  | PyVal.none => true
  | _ => false

/-- Every node of the forest is untouched: unfinished, `output` still
`None`. -/
def freshF : List WNode → Bool
  | [] => true
  | WNode.mk _ _ _ fin out ch :: rest => !fin && out.isNoneV && freshF ch && freshF rest

/-- Look a forest position up: `[j]` is the root of the `j`-th tree,
`j :: r` descends into its children. -/
def nodeAtF : List Nat → List WNode → Option WNode
  | [], _ => Option.none
  | j :: r, cs =>
    match cs.get? j with
    | Option.none => Option.none
    | Option.some c =>
      match r with
      | [] => Option.some c
      | _ :: _ => nodeAtF r c.children

/-! ### Basic lemmas about the tree observers -/

@[simp] theorem WNode.children_mk (k a nm fin out ch) :
    (WNode.mk k a nm fin out ch).children = ch := rfl

@[simp] theorem WNode.finished_mk (k a nm fin out ch) :
    (WNode.mk k a nm fin out ch).finished = fin := rfl

@[simp] theorem WNode.output_mk (k a nm fin out ch) :
    (WNode.mk k a nm fin out ch).output = out := rfl

@[simp] theorem WNode.work_type_mk (k a nm fin out ch) :
    (WNode.mk k a nm fin out ch).work_type = k := rfl

@[simp] theorem WNode.args_mk (k a nm fin out ch) :
    (WNode.mk k a nm fin out ch).args = a := rfl

@[simp] theorem WNode.nodeName_mk (k a nm fin out ch) :
    (WNode.mk k a nm fin out ch).nodeName = nm := rfl

@[simp] theorem WNode.withChildren_mk (k a nm fin out ch cs) :
    (WNode.mk k a nm fin out ch).withChildren cs = WNode.mk k a nm fin out cs := rfl

@[simp] theorem WNode.children_withChildren (c : WNode) (cs : List WNode) :
    (c.withChildren cs).children = cs := by cases c; rfl

@[simp] theorem WNode.finished_withChildren (c : WNode) (cs : List WNode) :
    (c.withChildren cs).finished = c.finished := by cases c; rfl

@[simp] theorem WNode.output_withChildren (c : WNode) (cs : List WNode) :
    (c.withChildren cs).output = c.output := by cases c; rfl

@[simp] theorem WNode.work_type_withChildren (c : WNode) (cs : List WNode) :
    (c.withChildren cs).work_type = c.work_type := by cases c; rfl

theorem preorderF_cons (c : WNode) (rest : List WNode) :
    preorderF (c :: rest) =
      ([0] :: (preorderF c.children).map (fun q => 0 :: q)) ++
        (preorderF rest).map shiftPath := by
  cases c; simp [preorderF]

theorem allFinishedF_cons (c : WNode) (rest : List WNode) :
    allFinishedF (c :: rest) =
      (c.finished && allFinishedF c.children && allFinishedF rest) := by
  cases c; simp [allFinishedF]

theorem freshF_cons (c : WNode) (rest : List WNode) :
    freshF (c :: rest) =
      (!c.finished && c.output.isNoneV && freshF c.children && freshF rest) := by
  cases c; simp [freshF]

@[simp] theorem shiftPath_cons (j : Nat) (r : List Nat) :
    shiftPath (j :: r) = (j + 1) :: r := rfl

/-- Every pre-order position is nonempty. -/
theorem preorderF_ne_nil : ∀ (cs : List WNode), ∀ q ∈ preorderF cs, q ≠ [] := by
  intro cs
  induction cs with
  | nil => intro q hq; simp [preorderF] at hq
  | cons c rest ih =>
    intro q hq
    rw [preorderF_cons] at hq
    rcases List.mem_append.mp hq with h | h
    · rcases List.mem_cons.mp h with h | h
      · subst h; simp
      · rcases List.mem_map.mp h with ⟨q2, _, hq2⟩
        subst hq2; simp
    · rcases List.mem_map.mp h with ⟨q1, hq1, hsh⟩
      have hne : q1 ≠ [] := ih q1 hq1
      cases q1 with
      | nil => exact absurd rfl hne
      | cons j r => subst hsh; simp

/-- Shifting is transparent to lookup once the head tree is dropped. -/
theorem nodeAtF_shift (q : List Nat) (t : WNode) (cs : List WNode) :
    nodeAtF (shiftPath q) (t :: cs) = nodeAtF q cs := by
  cases q with
  | nil => simp [shiftPath, nodeAtF]
  | cons j r => cases r <;> simp [shiftPath, nodeAtF]

@[simp] theorem nodeAtF_head (t : WNode) (cs : List WNode) :
    nodeAtF [0] (t :: cs) = Option.some t := by
  simp [nodeAtF]

theorem nodeAtF_zero_cons (q : List Nat) (hq : q ≠ []) (t : WNode) (cs : List WNode) :
    nodeAtF (0 :: q) (t :: cs) = nodeAtF q t.children := by
  cases q with
  | nil => exact absurd rfl hq
  | cons j r => simp [nodeAtF]

theorem PyVal.isNoneV_eq {v : PyVal} (h : v.isNoneV = true) : v = PyVal.none := by
  cases v <;> simp [PyVal.isNoneV] at h ⊢

/-- Components of a tree found in an all-fresh forest. -/
theorem freshF_get? : ∀ (cs : List WNode) (j : Nat) (c : WNode),
    freshF cs = true → cs.get? j = Option.some c →
    c.finished = false ∧ c.output = PyVal.none ∧ freshF c.children = true := by
  intro cs
  induction cs with
  | nil => intro j c _ hg; simp at hg
  | cons d rest ih =>
    intro j c hf hg
    rw [freshF_cons] at hf
    simp only [Bool.and_eq_true, Bool.not_eq_true'] at hf
    obtain ⟨⟨⟨hfin, hout⟩, hch⟩, hrest⟩ := hf
    cases j with
    | zero =>
      simp at hg; subst hg
      exact ⟨hfin, PyVal.isNoneV_eq hout, hch⟩
    | succ j => exact ih j c hrest (by simpa using hg)

/-- Components of a tree found in an all-finished forest. -/
theorem allFinishedF_get? : ∀ (cs : List WNode) (j : Nat) (c : WNode),
    allFinishedF cs = true → cs.get? j = Option.some c →
    c.finished = true ∧ allFinishedF c.children = true := by
  intro cs
  induction cs with
  | nil => intro j c _ hg; simp at hg
  | cons d rest ih =>
    intro j c hf hg
    rw [allFinishedF_cons] at hf
    simp only [Bool.and_eq_true] at hf
    obtain ⟨⟨hfin, hch⟩, hrest⟩ := hf
    cases j with
    | zero => simp at hg; subst hg; exact ⟨hfin, hch⟩
    | succ j => exact ih j c hrest (by simpa using hg)

/-- Every node reachable in a fresh forest is unfinished with output `None`. -/
theorem freshF_nodeAtF : ∀ (q : List Nat) (cs : List WNode) (m : WNode),
    freshF cs = true → nodeAtF q cs = Option.some m →
    m.finished = false ∧ m.output = PyVal.none := by
  intro q
  induction q with
  | nil => intro cs m _ h; simp [nodeAtF] at h
  | cons j r ih =>
    intro cs m hf h
    simp only [nodeAtF] at h
    cases hg : cs.get? j with
    | none => rw [hg] at h; exact absurd h (by simp)
    | some c =>
      rw [hg] at h
      obtain ⟨hfin, hout, hch⟩ := freshF_get? cs j c hf hg
      cases r with
      | nil =>
        simp at h; subst h; exact ⟨hfin, hout⟩
      | cons j2 r2 => exact ih c.children m hch h

/-- Every node reachable in an all-finished forest is finished. -/
theorem allFinishedF_nodeAtF : ∀ (q : List Nat) (cs : List WNode) (m : WNode),
    allFinishedF cs = true → nodeAtF q cs = Option.some m →
    m.finished = true := by
  intro q
  induction q with
  | nil => intro cs m _ h; simp [nodeAtF] at h
  | cons j r ih =>
    intro cs m hf h
    simp only [nodeAtF] at h
    cases hg : cs.get? j with
    | none => rw [hg] at h; exact absurd h (by simp)
    | some c =>
      rw [hg] at h
      obtain ⟨hfin, hch⟩ := allFinishedF_get? cs j c hf hg
      cases r with
      | nil => simp at h; subst h; exact hfin
      | cons j2 r2 => exact ih c.children m hch h

/-- A root position `[j]` is a pre-order position whenever tree `j` exists. -/
theorem get?_mem_preorderF : ∀ (cs : List WNode) (j : Nat) (c : WNode),
    cs.get? j = Option.some c → [j] ∈ preorderF cs := by
  intro cs
  induction cs with
  | nil => intro j c hg; simp at hg
  | cons d rest ih =>
    intro j c hg
    rw [preorderF_cons]
    cases j with
    | zero => simp
    | succ j =>
      refine List.mem_append.mpr (Or.inr ?_)
      refine List.mem_map.mpr ⟨[j], ih j c (by simpa using hg), ?_⟩
      simp

/-- Descending into tree `j` preserves pre-order membership. -/
theorem mem_preorderF_lift : ∀ (cs : List WNode) (j : Nat) (c : WNode) (r : List Nat),
    cs.get? j = Option.some c → r ∈ preorderF c.children → (j :: r) ∈ preorderF cs := by
  intro cs
  induction cs with
  | nil => intro j c r hg _; simp at hg
  | cons d rest ih =>
    intro j c r hg hr
    rw [preorderF_cons]
    cases j with
    | zero =>
      simp at hg; subst hg
      exact List.mem_append.mpr (Or.inl (List.mem_cons.mpr (Or.inr
        (List.mem_map.mpr ⟨r, hr, rfl⟩))))
    | succ j =>
      refine List.mem_append.mpr (Or.inr ?_)
      exact List.mem_map.mpr ⟨j :: r, ih j c r (by simpa using hg) hr, rfl⟩

/-- Any reachable position is a pre-order position of the forest. -/
theorem nodeAtF_mem_preorderF : ∀ (q : List Nat) (cs : List WNode) (m : WNode),
    nodeAtF q cs = Option.some m → q ∈ preorderF cs := by
  intro q
  induction q with
  | nil => intro cs m h; simp [nodeAtF] at h
  | cons j r ih =>
    intro cs m h
    simp only [nodeAtF] at h
    cases hg : cs.get? j with
    | none => rw [hg] at h; exact absurd h (by simp)
    | some c =>
      rw [hg] at h
      cases r with
      | nil => exact get?_mem_preorderF cs j c hg
      | cons j2 r2 =>
        exact mem_preorderF_lift cs j c (j2 :: r2) hg (ih c.children m h)

/-- Any pre-order position of the forest is reachable (bounded-length
induction so the walk may descend into children as well as across trees). -/
theorem mem_preorderF_nodeAtF_aux : ∀ (bound : Nat) (cs : List WNode) (q : List Nat),
    q.length ≤ bound → q ∈ preorderF cs → ∃ m, nodeAtF q cs = Option.some m := by
  intro bound
  induction bound with
  | zero =>
    intro cs q hlen hq
    have := preorderF_ne_nil cs q hq
    cases q with
    | nil => exact absurd rfl this
    | cons j r => simp at hlen
  | succ b ihb =>
    intro cs
    induction cs with
    | nil => intro q _ hq; simp [preorderF] at hq
    | cons d rest ihcs =>
      intro q hlen hq
      rw [preorderF_cons] at hq
      rcases List.mem_append.mp hq with h | h
      · rcases List.mem_cons.mp h with h | h
        · subst h; exact ⟨d, by simp⟩
        · rcases List.mem_map.mp h with ⟨q2, hq2, hlift⟩
          have hne : q2 ≠ [] := preorderF_ne_nil _ q2 hq2
          have hlen2 : q2.length ≤ b := by
            subst hlift
            simp at hlen
            omega
          obtain ⟨m, hm⟩ := ihb d.children q2 hlen2 hq2
          refine ⟨m, ?_⟩
          subst hlift
          rw [nodeAtF_zero_cons q2 hne d rest]
          exact hm
      · rcases List.mem_map.mp h with ⟨q1, hq1, hsh⟩
        have hne : q1 ≠ [] := preorderF_ne_nil _ q1 hq1
        have hlen1 : q1.length ≤ Nat.succ b := by
          subst hsh
          cases q1 with
          | nil => simp
          | cons j r => simpa [shiftPath] using hlen
        obtain ⟨m, hm⟩ := ihcs q1 hlen1 hq1
        refine ⟨m, ?_⟩
        subst hsh
        rw [nodeAtF_shift q1 d rest]
        exact hm

theorem mem_preorderF_nodeAtF (q : List Nat) (cs : List WNode)
    (hq : q ∈ preorderF cs) : ∃ m, nodeAtF q cs = Option.some m :=
  mem_preorderF_nodeAtF_aux q.length cs q (Nat.le_refl _) hq

/-! ### Inversion of `do_my_work` -/

theorem do_my_work_ok {reg : Registry} {n n1 : WNode}
    (h : do_my_work reg n = Except.ok n1) :
    ∃ resolver new_work out, reg n.work_type = Option.some resolver ∧
      resolver n.args = Except.ok (new_work, out) ∧
      n1 = WNode.mk n.work_type n.args n.nodeName true out
             (n.children ++ new_work.filterMap toChild) := by
  unfold do_my_work at h
  split at h
  · exact absurd h (by simp)
  · rename_i resolver hreg
    split at h
    · exact absurd h (by simp)
    · rename_i new_work out hres
      simp at h
      exact ⟨resolver, new_work, out, hreg, hres, h.symm⟩

theorem do_my_work_error_unregistered {reg : Registry} {n : WNode} {k : WorkloadType}
    (h : do_my_work reg n = Except.error (Err.unregisteredKind k)) :
    n.work_type = k ∧ reg k = Option.none := by
  unfold do_my_work at h
  split at h
  · rename_i hreg
    simp at h
    subst h
    exact ⟨rfl, hreg⟩
  · rename_i resolver hreg
    split at h
    · simp at h
    · simp at h

/-- A fresh-node forest built from resolver-returned `WorkNode` values. -/
theorem freshF_filterMap_toChild : ∀ (xs : List PyVal),
    freshF (xs.filterMap toChild) = true := by
  intro xs
  induction xs with
  | nil => simp [freshF]
  | cons x rest ih =>
    cases x <;>
      simp [toChild, List.filterMap_cons, ih, workNodeInit, freshF_cons,
        PyVal.isNoneV, freshF]

theorem freshF_append : ∀ (as bs : List WNode),
    freshF (as ++ bs) = (freshF as && freshF bs) := by
  intro as bs
  induction as with
  | nil => simp [freshF]
  | cons a rest ih =>
    rw [List.cons_append, freshF_cons, freshF_cons, ih]
    cases a.finished <;> cases ha : a.output.isNoneV <;>
      cases freshF a.children <;> cases freshF rest <;> cases freshF bs <;> simp

/-! ### The successful-walk specification -/

theorem nodup_combine (log2 log3 : List (List Nat))
    (h2 : log2.Nodup) (h3 : log3.Nodup)
    (hne2 : ∀ q ∈ log2, q ≠ []) (hne3 : ∀ q ∈ log3, q ≠ []) :
    (([0] :: log2.map (fun q => 0 :: q)) ++ log3.map shiftPath).Nodup := by
  rw [List.nodup_append]
  refine ⟨?_, ?_, ?_⟩
  · rw [List.nodup_cons]
    constructor
    · intro hmem
      rcases List.mem_map.mp hmem with ⟨q2, hq2, hq⟩
      have hq2nil : q2 = [] := by simpa using hq
      exact hne2 q2 hq2 hq2nil
    · exact h2.map (fun a b hab => by simpa using hab)
  · refine List.Nodup.map_on ?_ h3
    intro x hx y hy hxy
    have hxne := hne3 x hx
    have hyne := hne3 y hy
    cases x with
    | nil => exact absurd rfl hxne
    | cons jx rx =>
      cases y with
      | nil => exact absurd rfl hyne
      | cons jy ry =>
        simp [shiftPath] at hxy
        simp [hxy.1, hxy.2]
  · intro q hq hq3
    rcases List.mem_map.mp hq3 with ⟨q1, hq1, hsh⟩
    have hq1ne := hne3 q1 hq1
    cases q1 with
    | nil => exact absurd rfl hq1ne
    | cons j r =>
      rcases List.mem_cons.mp hq with h | h
      · rw [← hsh] at h; simp [shiftPath] at h
      · rcases List.mem_map.mp h with ⟨q2, _, hq2⟩
        rw [← hsh] at hq2; simp [shiftPath] at hq2

/-- A completed walk visits exactly the pre-order positions of the final
forest, in pre-order, each exactly once, and leaves every node finished. -/
theorem execF_ok_spec (reg : Registry) : ∀ (fuel : Nat) (cs cs' : List WNode)
    (log : List (List Nat)), execF reg fuel cs = ExecResult.ok cs' log →
    log = preorderF cs' ∧ allFinishedF cs' = true ∧ log.Nodup := by
  intro fuel
  induction fuel with
  | zero => intro cs cs' log h; simp [execF] at h
  | succ f ih =>
    intro cs cs' log h
    cases cs with
    | nil =>
      simp [execF] at h
      obtain ⟨hcs, hlog⟩ := h
      subst hcs; subst hlog
      simp [preorderF, allFinishedF]
    | cons c rest =>
      simp only [execF] at h
      split at h
      · exact absurd h (by simp)
      · rename_i c1 hdmw
        split at h
        · exact absurd h (by simp)
        · exact absurd h (by simp)
        · rename_i cs2 log2 hch
          split at h
          · exact absurd h (by simp)
          · rename_i cs3 log3 hrest
            simp only [ExecResult.ok.injEq] at h
            obtain ⟨hcs, hlog⟩ := h
            subst hcs; subst hlog
            obtain ⟨hlog2, hfin2, hnd2⟩ := ih c1.children cs2 log2 hch
            obtain ⟨hlog3, hfin3, hnd3⟩ := ih rest cs3 log3 hrest
            obtain ⟨resolver, new_work, out, -, -, hc1⟩ := do_my_work_ok hdmw
            refine ⟨?_, ?_, ?_⟩
            · rw [preorderF_cons, WNode.children_withChildren, hlog2, hlog3]
            · rw [allFinishedF_cons, WNode.children_withChildren,
                WNode.finished_withChildren, hc1]
              simp [hfin2, hfin3]
            · exact nodup_combine log2 log3 hnd2 hnd3
                (fun q hq => preorderF_ne_nil cs2 q (hlog2 ▸ hq))
                (fun q hq => preorderF_ne_nil cs3 q (hlog3 ▸ hq))
          · exact absurd h (by simp)

/-! ### The aborted-walk specification -/

@[simp] theorem nodeAtF_nil_path (cs : List WNode) : nodeAtF [] cs = Option.none := rfl

/-- An aborted walk: the log lists exactly the pre-order predecessors of the
failing position `p` (all of them finished in the partial forest), every
other reachable node - the failing one included - is untouched (unfinished,
`output` still `None`), and when the abort was a missing registry entry the
failing node's type is the unregistered one. -/
theorem execF_fail_spec (reg : Registry) : ∀ (fuel : Nat) (cs cs' : List WNode)
    (log : List (List Nat)) (p : List Nat) (e : Err),
    freshF cs = true → execF reg fuel cs = ExecResult.fail cs' log p e →
    (∃ tail, log ++ p :: tail = preorderF cs') ∧
    (∀ q ∈ log, ∃ m, nodeAtF q cs' = Option.some m ∧ m.finished = true) ∧
    (∀ q m, nodeAtF q cs' = Option.some m → q ∉ log →
        m.finished = false ∧ m.output = PyVal.none) ∧
    (∃ m, nodeAtF p cs' = Option.some m ∧ m.finished = false ∧
        m.output = PyVal.none ∧
        ∀ k, e = Err.unregisteredKind k → m.work_type = k ∧ reg k = Option.none) := by
  intro fuel
  induction fuel with
  | zero => intro cs cs' log p e _ h; simp [execF] at h
  | succ f ih =>
    intro cs cs' log p e hfresh h
    cases cs with
    | nil => simp [execF] at h
    | cons c rest =>
      have hfreshAll : freshF (c :: rest) = true := hfresh
      rw [freshF_cons] at hfresh
      simp only [Bool.and_eq_true, Bool.not_eq_true'] at hfresh
      obtain ⟨⟨⟨hcfin, hcout⟩, hcch⟩, hrest⟩ := hfresh
      simp only [execF] at h
      split at h
      · rename_i e0 hdmw
        simp only [ExecResult.fail.injEq] at h
        obtain ⟨hcs, hlog, hp, he⟩ := h
        subst hcs; subst hlog; subst hp; subst he
        refine ⟨⟨(preorderF c.children).map (fun q => 0 :: q) ++
            (preorderF rest).map shiftPath, ?_⟩, ?_, ?_, ?_⟩
        · rw [preorderF_cons]; simp
        · intro q hq; simp at hq
        · intro q m hm _
          exact freshF_nodeAtF q (c :: rest) m hfreshAll hm
        · refine ⟨c, by simp, hcfin, PyVal.isNoneV_eq hcout, ?_⟩
          intro k hk
          subst hk
          exact do_my_work_error_unregistered hdmw
      · rename_i c1 hdmw
        obtain ⟨resolver, new_work, out, hregc, hresc, hc1⟩ := do_my_work_ok hdmw
        have hc1fin : c1.finished = true := by rw [hc1]; simp
        have hc1ch : freshF c1.children = true := by
          rw [hc1]
          simp only [WNode.children_mk]
          rw [freshF_append]
          simp [hcch, freshF_filterMap_toChild]
        split at h
        · exact absurd h (by simp)
        · rename_i cs2 log2 p2 e2 hch
          simp only [ExecResult.fail.injEq] at h
          obtain ⟨hcs, hlog, hp, he⟩ := h
          subst hcs; subst hlog; subst hp; subst he
          obtain ⟨⟨tail2, ha2⟩, hb2, hc2, m2, hm2at, hm2fin, hm2out, hm2e⟩ :=
            ih c1.children cs2 log2 p2 e2 hc1ch hch
          have hsub2 : ∀ q ∈ log2, q ∈ preorderF cs2 := by
            intro q hq
            rw [← ha2]
            exact List.mem_append.mpr (Or.inl hq)
          have hp2mem : p2 ∈ preorderF cs2 := by
            rw [← ha2]
            exact List.mem_append.mpr (Or.inr (List.mem_cons_self _ _))
          have hp2ne : p2 ≠ [] := preorderF_ne_nil cs2 p2 hp2mem
          have htch : (c1.withChildren cs2).children = cs2 := by simp
          refine ⟨⟨tail2.map (fun q => 0 :: q) ++ (preorderF rest).map shiftPath, ?_⟩,
            ?_, ?_, ?_⟩
          · rw [preorderF_cons, htch, ← ha2]
            simp [List.map_append]
          · intro q hq
            rcases List.mem_cons.mp hq with hq | hq
            · subst hq
              exact ⟨c1.withChildren cs2, by simp, by simp [hc1fin]⟩
            · rcases List.mem_map.mp hq with ⟨q2, hq2, hqeq⟩
              subst hqeq
              have hq2ne : q2 ≠ [] := preorderF_ne_nil cs2 q2 (hsub2 q2 hq2)
              obtain ⟨m, hmat, hmfin⟩ := hb2 q2 hq2
              refine ⟨m, ?_, hmfin⟩
              rw [nodeAtF_zero_cons q2 hq2ne, htch]
              exact hmat
          · intro q m hm hnq
            cases q with
            | nil => simp at hm
            | cons j r =>
              cases j with
              | zero =>
                cases r with
                | nil => exact (hnq (List.mem_cons_self _ _)).elim
                | cons j2 r2 =>
                  rw [nodeAtF_zero_cons (j2 :: r2) (by simp), htch] at hm
                  refine hc2 (j2 :: r2) m hm ?_
                  intro hmem
                  exact hnq (List.mem_cons.mpr (Or.inr
                    (List.mem_map.mpr ⟨j2 :: r2, hmem, rfl⟩)))
              | succ j' =>
                have : nodeAtF (shiftPath (j' :: r)) (c1.withChildren cs2 :: rest) =
                    nodeAtF (j' :: r) rest := nodeAtF_shift (j' :: r) _ rest
                rw [shiftPath_cons] at this
                rw [this] at hm
                exact freshF_nodeAtF (j' :: r) rest m hrest hm
          · refine ⟨m2, ?_, hm2fin, hm2out, hm2e⟩
            rw [nodeAtF_zero_cons p2 hp2ne, htch]
            exact hm2at
        · rename_i cs2 log2 hch
          split at h
          · exact absurd h (by simp)
          · exact absurd h (by simp)
          · rename_i cs3 log3 p3 e3 hrest3
            simp only [ExecResult.fail.injEq] at h
            obtain ⟨hcs, hlog, hp, he⟩ := h
            subst hcs; subst hlog; subst hp; subst he
            obtain ⟨hlog2, hfin2, -⟩ := execF_ok_spec reg f c1.children cs2 log2 hch
            obtain ⟨⟨tail3, ha3⟩, hb3, hc3, m3, hm3at, hm3fin, hm3out, hm3e⟩ :=
              ih rest cs3 log3 p3 e3 hrest hrest3
            have htch : (c1.withChildren cs2).children = cs2 := by simp
            refine ⟨⟨tail3.map shiftPath, ?_⟩, ?_, ?_, ?_⟩
            · rw [preorderF_cons, htch, hlog2, ← ha3]
              simp [List.map_append, List.append_assoc]
            · intro q hq
              rcases List.mem_append.mp hq with hq | hq
              · rcases List.mem_cons.mp hq with hq | hq
                · subst hq
                  exact ⟨c1.withChildren cs2, by simp, by simp [hc1fin]⟩
                · rcases List.mem_map.mp hq with ⟨q2, hq2, hqeq⟩
                  subst hqeq
                  rw [hlog2] at hq2
                  have hq2ne : q2 ≠ [] := preorderF_ne_nil cs2 q2 hq2
                  obtain ⟨m, hmat⟩ := mem_preorderF_nodeAtF q2 cs2 hq2
                  refine ⟨m, ?_, allFinishedF_nodeAtF q2 cs2 m hfin2 hmat⟩
                  rw [nodeAtF_zero_cons q2 hq2ne, htch]
                  exact hmat
              · rcases List.mem_map.mp hq with ⟨q1, hq1, hqeq⟩
                subst hqeq
                obtain ⟨m, hmat, hmfin⟩ := hb3 q1 hq1
                refine ⟨m, ?_, hmfin⟩
                rw [nodeAtF_shift q1 _ cs3]
                exact hmat
            · intro q m hm hnq
              cases q with
              | nil => simp at hm
              | cons j r =>
                cases j with
                | zero =>
                  cases r with
                  | nil =>
                    refine absurd ?_ hnq
                    exact List.mem_append.mpr (Or.inl (List.mem_cons_self _ _))
                  | cons j2 r2 =>
                    rw [nodeAtF_zero_cons (j2 :: r2) (by simp), htch] at hm
                    have : (j2 :: r2) ∈ preorderF cs2 :=
                      nodeAtF_mem_preorderF (j2 :: r2) cs2 m hm
                    refine absurd ?_ hnq
                    refine List.mem_append.mpr (Or.inl (List.mem_cons.mpr (Or.inr ?_)))
                    exact List.mem_map.mpr ⟨j2 :: r2, hlog2 ▸ this, rfl⟩
                | succ j' =>
                  have hsh : nodeAtF (shiftPath (j' :: r))
                      (c1.withChildren cs2 :: cs3) = nodeAtF (j' :: r) cs3 :=
                    nodeAtF_shift (j' :: r) _ cs3
                  rw [shiftPath_cons] at hsh
                  rw [hsh] at hm
                  refine hc3 (j' :: r) m hm ?_
                  intro hmem
                  refine hnq (List.mem_append.mpr (Or.inr ?_))
                  exact List.mem_map.mpr ⟨j' :: r, hmem, rfl⟩
            · refine ⟨m3, ?_, hm3fin, hm3out, hm3e⟩
              rw [nodeAtF_shift p3 _ cs3]
              exact hm3at

/-- A completed walk over a nonempty forest logged its head first. -/
theorem execF_ok_cons_log (reg : Registry) (fuel : Nat) (c : WNode)
    (rest cs' : List WNode) (log : List (List Nat))
    (h : execF reg fuel (c :: rest) = ExecResult.ok cs' log) :
    ∃ ltail, log = [0] :: ltail := by
  cases fuel with
  | zero => simp [execF] at h
  | succ f =>
    simp only [execF] at h
    split at h
    · exact absurd h (by simp)
    · split at h
      · exact absurd h (by simp)
      · exact absurd h (by simp)
      · split at h
        · exact absurd h (by simp)
        · rename_i cs3 log3 hrest
          simp only [ExecResult.ok.injEq] at h
          exact ⟨_, h.2.symm⟩
        · exact absurd h (by simp)

/-! ### The resolver adapter -/

theorem split_iterable_eq_filter : ∀ (xs : List PyVal) (cond : PyVal → Bool),
    split_iterable xs cond =
      (xs.filter cond, xs.filter (fun x => ! cond x)) := by
  intro xs cond
  induction xs with
  | nil => simp [split_iterable]
  | cons x rest ih =>
    rw [split_iterable, ih]
    cases hx : cond x <;> simp [List.filter_cons, hx]

theorem normalizeResult_iterable {v : PyVal} (hit : v.isIterable = true) :
    normalizeResult v =
      (v.iterate.filter PyVal.isWorkNode,
       PyVal.list (v.iterate.filter (fun x => ! x.isWorkNode))) := by
  cases v <;> simp [PyVal.isIterable] at hit <;>
    rw [normalizeResult] <;>
    simp [PyVal.isIterable, split_iterable_eq_filter]

theorem normalizeResult_not_iterable {v : PyVal} (hit : v.isIterable = false)
    (hwn : v.isWorkNode = false) : normalizeResult v = ([], v) := by
  cases v with
  | none => simp [normalizeResult]
  | int n => simp [normalizeResult, PyVal.isIterable, PyVal.isWorkNode]
  | worknode k a nm => simp [PyVal.isWorkNode] at hwn
  | str s => simp [PyVal.isIterable] at hit
  | list xs => simp [PyVal.isIterable] at hit
  | tuple xs => simp [PyVal.isIterable] at hit

/-- C4: the resolver adapter's normalization table.  `None` (no value
returned) gives `([], absent)`; a single `WorkNode` gives `([that node],
absent)`; a single non-iterable non-`WorkNode` value gives `([], that
value)`; an iterable is partitioned into the `WorkNode` items (original
order) and the non-`WorkNode` items, the output component being the ordered
sequence (Python list) of the latter - in particular, when more than one
non-`WorkNode` item is present, the output is that sequence and not a single
value.  The final conjunct ties the table to `decorated_function`: the
wrapper applies exactly this normalization to the raw resolver's return
value. -/
theorem c4_adapter_normalization :
    (normalizeResult PyVal.none = ([], PyVal.none)) ∧
    (∀ k a nm, normalizeResult (PyVal.worknode k a nm) =
        ([PyVal.worknode k a nm], PyVal.none)) ∧
    (∀ v : PyVal, v.isIterable = false → v.isWorkNode = false →
        normalizeResult v = ([], v)) ∧
    (∀ v : PyVal, v.isIterable = true →
        normalizeResult v = (v.iterate.filter PyVal.isWorkNode,
          PyVal.list (v.iterate.filter (fun x => ! x.isWorkNode)))) ∧
    (∀ (f : RawResolver) (args : List PyVal) (v : PyVal), f args = Except.ok v →
        decorated_function f args = Except.ok (normalizeResult v)) := by
  refine ⟨rfl, ?_, ?_, ?_, ?_⟩
  · intro k a nm
    simp [normalizeResult, PyVal.isIterable, PyVal.isWorkNode]
  · intro v hit hwn
    exact normalizeResult_not_iterable hit hwn
  · intro v hit
    exact normalizeResult_iterable hit
  · intro f args v hv
    simp [decorated_function, hv]

theorem c4_witness :
    normalizeResult (PyVal.int 5) = ([], PyVal.int 5) ∧
    normalizeResult
        (PyVal.list [PyVal.worknode WorkloadType.parse_op [] Option.none,
          PyVal.int 1, PyVal.int 2]) =
      ([PyVal.worknode WorkloadType.parse_op [] Option.none],
       PyVal.list [PyVal.int 1, PyVal.int 2]) := by
  constructor
  · exact c4_adapter_normalization.2.2.1 (PyVal.int 5) rfl rfl
  · rw [c4_adapter_normalization.2.2.2.1
      (PyVal.list [PyVal.worknode WorkloadType.parse_op [] Option.none,
        PyVal.int 1, PyVal.int 2]) rfl]
    rfl

theorem filter_isWorkNode_of_chars : ∀ (l : List Char),
    ((l.map (fun c => PyVal.str (String.mk [c]))).filter PyVal.isWorkNode = []) ∧
    ((l.map (fun c => PyVal.str (String.mk [c]))).filter
        (fun x => ! x.isWorkNode) = l.map (fun c => PyVal.str (String.mk [c]))) := by
  intro l
  induction l with
  | nil => simp
  | cons c rest ih => simp [List.filter_cons, PyVal.isWorkNode, ih.1, ih.2]

/-- C9: a raw resolver return value that is a string is treated as an
iterable by the adapter, so it is normalized to `([], the list of the
string's individual characters)` (each character a length-one string), not
to `([], the string itself)`. -/
theorem c9_string_is_iterated : ∀ s : String,
    normalizeResult (PyVal.str s) =
      ([], PyVal.list (s.data.map (fun c => PyVal.str (String.mk [c])))) ∧
    normalizeResult (PyVal.str s) ≠ ([], PyVal.str s) := by
  intro s
  have h := normalizeResult_iterable (v := PyVal.str s) rfl
  rw [PyVal.iterate] at h
  rw [(filter_isWorkNode_of_chars s.data).1, (filter_isWorkNode_of_chars s.data).2] at h
  refine ⟨h, ?_⟩
  rw [h]
  intro hcontra
  simp at hcontra

/-- C10: whenever the raw resolver return value is an iterable, the
normalized output component is a Python list, never absent: the empty list
when every item is a `WorkNode`, and the one-element list (not the bare
value) when exactly one non-`WorkNode` item is present; `do_my_work` then
assigns that list to the executing node's `output`, so a node whose
resolver returned only child tasks ends with `output = []` rather than
unset. -/
theorem c10_iterable_output_is_list (reg : Registry) (n : WNode)
    (f : RawResolver) (v : PyVal)
    (hreg : reg n.work_type = Option.some (decorated_function f))
    (hv : f n.args = Except.ok v) (hit : v.isIterable = true) :
    ∃ n1, do_my_work reg n = Except.ok n1 ∧
      n1.output = PyVal.list (v.iterate.filter (fun x => ! x.isWorkNode)) ∧
      n1.output ≠ PyVal.none ∧
      (v.iterate.all PyVal.isWorkNode = true → n1.output = PyVal.list []) ∧
      (∀ x, v.iterate.filter (fun y => ! y.isWorkNode) = [x] →
          n1.output = PyVal.list [x]) := by
  have hnorm := normalizeResult_iterable hit
  refine ⟨WNode.mk n.work_type n.args n.nodeName true
      (PyVal.list (v.iterate.filter (fun x => ! x.isWorkNode)))
      (n.children ++ (v.iterate.filter PyVal.isWorkNode).filterMap toChild), ?_, ?_, ?_, ?_, ?_⟩
  · simp [do_my_work, hreg, decorated_function, hv, hnorm]
  · simp
  · simp
  · intro hall
    have : v.iterate.filter (fun x => ! x.isWorkNode) = [] := by
      rw [List.filter_eq_nil_iff]
      intro a ha
      have := List.all_eq_true.mp hall a ha
      simp [this]
    simp [this]
  · intro x hx
    simp [hx]

/-- A raw resolver returning only child tasks. -/
def fOnlyKids : RawResolver := fun _ =>
  Except.ok (PyVal.list [PyVal.worknode WorkloadType.parse_op [] Option.none])

def regOnlyKids : Registry := fun k =>
  match k with
  | WorkloadType.parse_table => Option.some (decorated_function fOnlyKids)
  | _ => Option.none

def nOnlyKids : WNode := workNodeInit WorkloadType.parse_table [] Option.none

theorem c10_witness :
    ∃ n1, do_my_work regOnlyKids nOnlyKids = Except.ok n1 ∧
      n1.output = PyVal.list (((PyVal.list
        [PyVal.worknode WorkloadType.parse_op [] Option.none]).iterate).filter
          (fun x => ! x.isWorkNode)) ∧
      n1.output ≠ PyVal.none ∧
      (((PyVal.list [PyVal.worknode WorkloadType.parse_op [] Option.none]).iterate).all
          PyVal.isWorkNode = true → n1.output = PyVal.list []) ∧
      (∀ x, ((PyVal.list [PyVal.worknode WorkloadType.parse_op [] Option.none]).iterate).filter
          (fun y => ! y.isWorkNode) = [x] → n1.output = PyVal.list [x]) :=
  c10_iterable_output_is_list regOnlyKids nOnlyKids fOnlyKids
    (PyVal.list [PyVal.worknode WorkloadType.parse_op [] Option.none]) rfl rfl rfl

/-! ### Registration (C6) -/

/-- C6: when `kind` is already bound, a second `_register_resolver` without
override fails (the assert raises, so the table is never written and the
existing binding stays in place), while with `override=true` it succeeds and
a subsequent lookup of that kind returns the newly registered resolver. -/
theorem c6_duplicate_registration (reg : Registry) (k : WorkloadType)
    (r1 r2 : Resolver) (h : reg k = Option.some r1) :
    _register_resolver reg k r2 false = Except.error () ∧
    reg k = Option.some r1 ∧
    ∃ reg2, _register_resolver reg k r2 true = Except.ok reg2 ∧
      reg2 k = Option.some r2 := by
  unfold _register_resolver
  rw [h]
  refine ⟨by simp, rfl, ?_⟩
  refine ⟨fun k2 => if k2 = k then Option.some r2 else reg k2, by simp, by simp⟩

def resolverOne : Resolver := decorated_function (fun _ => Except.ok PyVal.none)

def resolverTwo : Resolver := decorated_function (fun _ => Except.ok (PyVal.int 1))

def regOne : Registry := fun k =>
  match k with
  | WorkloadType.chat => Option.some resolverOne
  | _ => Option.none

theorem c6_witness :
    _register_resolver regOne WorkloadType.chat resolverTwo false = Except.error () ∧
    regOne WorkloadType.chat = Option.some resolverOne ∧
    ∃ reg2, _register_resolver regOne WorkloadType.chat resolverTwo true = Except.ok reg2 ∧
      reg2 WorkloadType.chat = Option.some resolverTwo :=
  c6_duplicate_registration regOne WorkloadType.chat resolverOne resolverTwo rfl

/-! ### Construction (C8) -/

/-- The parameters of `WorkNode.__init__(self, work_type, args=(), *,
name=None, parent=None)`, as written in the source: `kwargs` (a field of
the `Workload` dataclass, defaulted to the empty dict by
`super().__init__(work_type, args)`) is not among them. -/
def workNodeInitParams : List String := ["work_type", "args", "name", "parent"]

/-- C8 counterexample: the constructor does not accept a `kwargs` parameter
(`WorkNode(kind, kwargs={...})` raises `TypeError`), so the claimed
signature `TaskNode(kind, args=(), kwargs={}, name=None, parent=None)` is
not the one the code exposes. -/
theorem c8_counterexample : "kwargs" ∉ workNodeInitParams := by
  simp [workNodeInitParams]

/-- C8 as amended: the constructor accepts `work_type`, `args` and the
keyword-only `name` and `parent` (not `kwargs`), and produces a node with
`finished=false`, `output` absent, no children, the name defaulting to the
rendering `f"'{work_type.name}'"` of the kind when not supplied; when a
parent is given, the new node is appended to that parent's children. -/
theorem c8_construction (k : WorkloadType) (a : List PyVal) (parent : WNode) :
    (workNodeInit k a Option.none).finished = false ∧
    (workNodeInit k a Option.none).output = PyVal.none ∧
    (workNodeInit k a Option.none).nodeName = defaultName k ∧
    (workNodeInit k a Option.none).children = [] ∧
    (attachTo parent (workNodeInit k a Option.none)).children =
      parent.children ++ [workNodeInit k a Option.none] := by
  refine ⟨rfl, rfl, rfl, rfl, ?_⟩
  simp [attachTo]

/-! ### The executor claims (C1, C2, C3, C5, C7) -/

/-- C1: a completed `do_all_work` visits exactly the positions of the final
forest (which includes every node attached during the walk), in strict
pre-order - a node before its descendants, newly attached children before
the node's later siblings, siblings in the order they became children - and
the visit log (one entry per completed `do_my_work`, i.e. per resolver
invocation) contains each position exactly once. -/
theorem c1_preorder_visits (reg : Registry) (fuel : Nat) (n : WNode)
    (forest : List WNode) (log : List (List Nat))
    (h : do_all_work reg fuel n = ExecResult.ok forest log) :
    log = preorderF forest ∧ log.Nodup :=
  ⟨(execF_ok_spec reg fuel [n] forest log h).1,
   (execF_ok_spec reg fuel [n] forest log h).2.2⟩

/-- Test resolver for C1: kind `parse_top_level_comments` fans out into two
children of kind `parse_comment_for_table`; that kind's resolver returns a
fixed leaf output. -/
def fTwoKids : RawResolver := fun _ => Except.ok (PyVal.tuple
  [PyVal.worknode WorkloadType.parse_comment_for_table [] Option.none,
   PyVal.worknode WorkloadType.parse_comment_for_table [] Option.none])

def fLeafSeven : RawResolver := fun _ => Except.ok (PyVal.int 7)

def regAB : Registry := fun k =>
  match k with
  | WorkloadType.parse_top_level_comments => Option.some (decorated_function fTwoKids)
  | WorkloadType.parse_comment_for_table => Option.some (decorated_function fLeafSeven)
  | _ => Option.none

def rootAB : WNode := workNodeInit WorkloadType.parse_top_level_comments [] Option.none

def leafSeven : WNode :=
  WNode.mk WorkloadType.parse_comment_for_table [] "\x27parse_comment_for_table\x27"
    true (PyVal.int 7) []

def tAB : WNode :=
  WNode.mk WorkloadType.parse_top_level_comments [] "\x27parse_top_level_comments\x27"
    true (PyVal.list []) [leafSeven, leafSeven]

theorem c1_witness :
    do_all_work regAB 10 rootAB = ExecResult.ok [tAB] [[0], [0, 0], [0, 1]] ∧
    [[0], [0, 0], [0, 1]] = preorderF [tAB] ∧
    ([[0], [0, 0], [0, 1]] : List (List Nat)).Nodup :=
  ⟨rfl,
   (c1_preorder_visits regAB 10 rootAB [tAB] [[0], [0, 0], [0, 1]] rfl).1,
   (c1_preorder_visits regAB 10 rootAB [tAB] [[0], [0, 0], [0, 1]] rfl).2⟩

/-- C2 as amended: after a completed `do_all_work`, every node reachable in
the final forest has `finished = true`; a node's `output` and new children
both come from its one resolver call (`new_work, self.output = resolver(...)`
assigns them together), so "output set" and "non-empty children" are not
mutually exclusive, and both may be absent (a `None`-returning resolver). -/
theorem c2_all_finished (reg : Registry) (fuel : Nat) (n : WNode)
    (forest : List WNode) (log : List (List Nat))
    (h : do_all_work reg fuel n = ExecResult.ok forest log) :
    allFinishedF forest = true :=
  (execF_ok_spec reg fuel [n] forest log h).2.1

theorem c2_witness : allFinishedF [tAB] = true :=
  c2_all_finished regAB 10 rootAB [tAB] [[0], [0, 0], [0, 1]] rfl

/-- Test resolver for the C2 counterexample: a mixed iterable return, one
child task plus one plain output item, from a single resolver call. -/
def fMixedRoot : RawResolver := fun _ =>
  Except.ok (PyVal.list [PyVal.worknode WorkloadType.parse_op [] Option.none, PyVal.int 7])

def fLeafThree : RawResolver := fun _ => Except.ok (PyVal.int 3)

def regMixed : Registry := fun k =>
  match k with
  | WorkloadType.username_mention => Option.some (decorated_function fMixedRoot)
  | WorkloadType.parse_op => Option.some (decorated_function fLeafThree)
  | _ => Option.none

def rootMixed : WNode := workNodeInit WorkloadType.username_mention [] Option.none

def tMixed : WNode :=
  WNode.mk WorkloadType.username_mention [] "\x27username_mention\x27" true
    (PyVal.list [PyVal.int 7])
    [WNode.mk WorkloadType.parse_op [] "\x27parse_op\x27" true (PyVal.int 3) []]

/-- C2 counterexample: the root's single resolver call returns
`[WorkNode(parse_op), 7]`; after `execute` the root has BOTH a non-empty
children sequence appended at traversal time AND its output set (to `[7]`),
refuting "never both resulting from the same single resolver call". -/
theorem c2_counterexample :
    do_all_work regMixed 5 rootMixed = ExecResult.ok [tMixed] [[0], [0, 0]] ∧
    tMixed.finished = true ∧
    tMixed.children ≠ [] ∧
    tMixed.output = PyVal.list [PyVal.int 7] ∧
    tMixed.output ≠ PyVal.none :=
  ⟨rfl, rfl, by simp [tMixed], rfl, by simp [tMixed]⟩

/-- C3 as amended: `do_all_work` never consults `finished`, so calling it
again on a tree in which every reachable node is already finished re-invokes
each reachable node's resolver once more: the run's visit log is again the
full pre-order of the forest, and in particular nonempty rather than
empty. -/
theorem c3_rerun_invokes (reg : Registry) (fuel : Nat) (n : WNode)
    (forest : List WNode) (log : List (List Nat))
    (_hfin : allFinishedF [n] = true)
    (h : do_all_work reg fuel n = ExecResult.ok forest log) :
    log = preorderF forest ∧ log ≠ [] := by
  obtain ⟨ltail, hlt⟩ := execF_ok_cons_log reg fuel n [] forest log h
  exact ⟨(execF_ok_spec reg fuel [n] forest log h).1, by rw [hlt]; simp⟩

def fLeafSevenB : RawResolver := fun _ => Except.ok (PyVal.int 7)

def regLeaf : Registry := fun k =>
  match k with
  | WorkloadType.default_request => Option.some (decorated_function fLeafSevenB)
  | _ => Option.none

def nLeaf : WNode := workNodeInit WorkloadType.default_request [] Option.none

def tLeaf : WNode :=
  WNode.mk WorkloadType.default_request [] "\x27default_request\x27" true (PyVal.int 7) []

/-- C3 counterexample: after a first `do_all_work` finishes the single-node
tree, a second `do_all_work` on the fully finished tree logs a visit of the
same node again ([[0]], not []): it performs a resolver invocation instead
of performing none, and across the two calls the node's resolver has been
executed twice. -/
theorem c3_counterexample :
    do_all_work regLeaf 3 nLeaf = ExecResult.ok [tLeaf] [[0]] ∧
    allFinishedF [tLeaf] = true ∧
    do_all_work regLeaf 3 tLeaf = ExecResult.ok [tLeaf] [[0]] ∧
    ([[0]] : List (List Nat)) ≠ [] :=
  ⟨rfl, by simp [tLeaf, allFinishedF], rfl, by simp⟩

theorem c3_witness : [[0]] = preorderF [tLeaf] ∧ ([[0]] : List (List Nat)) ≠ [] :=
  c3_rerun_invokes regLeaf 3 tLeaf [tLeaf] [[0]]
    (by simp [tLeaf, allFinishedF]) rfl

/-- C5: when a resolver raises during `do_all_work` over a fresh tree, the
whole call aborts: the visit log is exactly the strict pre-order prefix of
positions before the failing position `p`, every node visited before `p`
remains finished, every node not visited (the failing node and everything
scheduled at or after it in pre-order) is untouched - `finished = false`
with `output` unchanged (`None`) - and in particular the failing node
itself. -/
theorem c5_failure_aborts (reg : Registry) (fuel : Nat) (n : WNode)
    (forest : List WNode) (log : List (List Nat)) (p : List Nat) (e : Err)
    (hfresh : freshF [n] = true)
    (h : do_all_work reg fuel n = ExecResult.fail forest log p e) :
    (∃ tail, log ++ p :: tail = preorderF forest) ∧
    (∀ q ∈ log, ∃ m, nodeAtF q forest = Option.some m ∧ m.finished = true) ∧
    (∀ q m, nodeAtF q forest = Option.some m → q ∉ log →
        m.finished = false ∧ m.output = PyVal.none) ∧
    (∃ m, nodeAtF p forest = Option.some m ∧ m.finished = false ∧
        m.output = PyVal.none) := by
  obtain ⟨ha, hb, hc, m, hm1, hm2, hm3, -⟩ :=
    execF_fail_spec reg fuel [n] forest log p e hfresh h
  exact ⟨ha, hb, hc, m, hm1, hm2, hm3⟩

/-- Test resolvers for C5: the root fans out into `parse_op` (leaf),
`follow_link` (raises on invocation) and `parse_table` (leaf). -/
def fFanOut : RawResolver := fun _ =>
  Except.ok (PyVal.tuple [PyVal.worknode WorkloadType.parse_op [] Option.none,
    PyVal.worknode WorkloadType.follow_link [] Option.none,
    PyVal.worknode WorkloadType.parse_table [] Option.none])

def fLeafOne : RawResolver := fun _ => Except.ok (PyVal.int 1)

def fRaise : RawResolver := fun _ => Except.error ()

def fLeafTwo : RawResolver := fun _ => Except.ok (PyVal.int 2)

def regFail : Registry := fun k =>
  match k with
  | WorkloadType.username_mention => Option.some (decorated_function fFanOut)
  | WorkloadType.parse_op => Option.some (decorated_function fLeafOne)
  | WorkloadType.follow_link => Option.some (decorated_function fRaise)
  | WorkloadType.parse_table => Option.some (decorated_function fLeafTwo)
  | _ => Option.none

def rootFail : WNode := workNodeInit WorkloadType.username_mention [] Option.none

def tFail : WNode :=
  WNode.mk WorkloadType.username_mention [] "\x27username_mention\x27" true
    (PyVal.list [])
    [WNode.mk WorkloadType.parse_op [] "\x27parse_op\x27" true (PyVal.int 1) [],
     WNode.mk WorkloadType.follow_link [] "\x27follow_link\x27" false PyVal.none [],
     WNode.mk WorkloadType.parse_table [] "\x27parse_table\x27" false PyVal.none []]

theorem c5_witness :
    (∃ tail, [[0], [0, 0]] ++ [0, 1] :: tail = preorderF [tFail]) ∧
    (∀ q ∈ ([[0], [0, 0]] : List (List Nat)),
        ∃ m, nodeAtF q [tFail] = Option.some m ∧ m.finished = true) ∧
    (∀ q m, nodeAtF q [tFail] = Option.some m → q ∉ ([[0], [0, 0]] : List (List Nat)) →
        m.finished = false ∧ m.output = PyVal.none) ∧
    (∃ m, nodeAtF [0, 1] [tFail] = Option.some m ∧ m.finished = false ∧
        m.output = PyVal.none) :=
  c5_failure_aborts regFail 8 rootFail [tFail] [[0], [0, 0]] [0, 1]
    Err.resolverFailure
    (by simp [rootFail, workNodeInit, freshF, PyVal.isNoneV]) rfl

/-- C7: reaching a node whose kind has no registered resolver aborts the
whole `do_all_work` call with `KeyError` (= `UnregisteredKindError`).  First
conjunct: a root with an unregistered kind fails immediately, the tree
untouched.  Second conjunct: whenever a walk over a fresh tree aborts with
`Err.unregisteredKind k`, the failing node has kind `k`, `k` is indeed
unbound in the registry, and that node is left `finished = false`. -/
theorem c7_unregistered :
    (∀ (reg : Registry) (f : Nat) (n : WNode), reg n.work_type = Option.none →
        do_all_work reg (Nat.succ f) n =
          ExecResult.fail [n] [] [0] (Err.unregisteredKind n.work_type)) ∧
    (∀ (reg : Registry) (fuel : Nat) (n : WNode) (forest : List WNode)
        (log : List (List Nat)) (p : List Nat) (k : WorkloadType),
        freshF [n] = true →
        do_all_work reg fuel n = ExecResult.fail forest log p (Err.unregisteredKind k) →
        reg k = Option.none ∧
        ∃ m, nodeAtF p forest = Option.some m ∧ m.work_type = k ∧
          m.finished = false) := by
  constructor
  · intro reg f n hreg
    simp [do_all_work, execF, do_my_work, hreg]
  · intro reg fuel n forest log p k hfresh h
    obtain ⟨-, -, -, m, hm1, hm2, -, hke⟩ :=
      execF_fail_spec reg fuel [n] forest log p (Err.unregisteredKind k) hfresh h
    obtain ⟨hkind, hnone⟩ := hke k rfl
    exact ⟨hnone, m, hm1, hkind, hm2⟩

def regEmpty : Registry := fun _ => Option.none

def nChat : WNode := workNodeInit WorkloadType.chat [] Option.none

theorem c7_witness :
    do_all_work regEmpty 1 nChat =
      ExecResult.fail [nChat] [] [0] (Err.unregisteredKind WorkloadType.chat) ∧
    (regEmpty WorkloadType.chat = Option.none ∧
      ∃ m, nodeAtF [0] [nChat] = Option.some m ∧ m.work_type = WorkloadType.chat ∧
        m.finished = false) :=
  ⟨c7_unregistered.1 regEmpty 0 nChat rfl,
   c7_unregistered.2 regEmpty 1 nChat [nChat] [] [0] WorkloadType.chat
     (by simp [nChat, workNodeInit, freshF, PyVal.isNoneV]) rfl⟩
